import Mathlib

/-!
# Verification of the cmdg interactive mail client core

Shallow embedding of the Go sources of `cmdg` (cmdg.go and the file-dialog
helper), together with proofs about the fetch coordinator, list model,
base64url codec, editor mode loop, directory listing, scroll clamping,
timestamp rendering and mark toggling.

Byte strings are modelled as `List Nat` (each element a byte value < 256)
and Go strings that are only inspected character-wise as `List Char`.
-/

namespace Cmdg

/-! ## Base64 (mimeEncode / mimeDecode, cmdg.go lines 291-303)

`mimeEncode` applies Go's `base64.StdEncoding.EncodeToString` and then
substitutes `+`→`-` and `/`→`_`; `mimeDecode` reverses the substitutions and
applies `base64.StdEncoding.DecodeString`.  The standard encoding is the
RFC 4648 standard alphabet with `=` padding; Go's (non-Strict) decoder
accepts non-zero trailing padding bits, which the model reproduces.  The
model does not reproduce the decoder's skipping of embedded newlines, which
never occur in encoder output. -/

/-- The RFC 4648 standard Base64 alphabet used by `base64.StdEncoding`. -/
def b64Alphabet : List Char :=
  ['A','B','C','D','E','F','G','H','I','J','K','L','M',
   'N','O','P','Q','R','S','T','U','V','W','X','Y','Z',
   'a','b','c','d','e','f','g','h','i','j','k','l','m',
   'n','o','p','q','r','s','t','u','v','w','x','y','z',
   '0','1','2','3','4','5','6','7','8','9','+','/']

/-- Character for a 6-bit group (out-of-range values give the pad char,
which the encoder never requests). -/
def b64Char (n : Nat) : Char := b64Alphabet.getD n '='

/-- Inverse of the standard alphabet: the 6-bit value of a Base64 digit. -/
def b64Index (c : Char) : Option Nat :=
  if 65 ≤ c.toNat ∧ c.toNat ≤ 90 then some (c.toNat - 65)
  else if 97 ≤ c.toNat ∧ c.toNat ≤ 122 then some (c.toNat - 97 + 26)
  else if 48 ≤ c.toNat ∧ c.toNat ≤ 57 then some (c.toNat - 48 + 52)
  else if c = '+' then some 62
  else if c = '/' then some 63
  else none

/-- One full 3-byte group of the standard Base64 encoder. -/
def b64EncodeChunk (b1 b2 b3 : Nat) : List Char :=
  [b64Char (b1 / 4), b64Char (b1 % 4 * 16 + b2 / 16),
   b64Char (b2 % 16 * 4 + b3 / 64), b64Char (b3 % 64)]

/-- `base64.StdEncoding.EncodeToString`: 3-byte groups, `=`-padded tail. -/
def b64Encode : List Nat → List Char
  | [] => []
  | [b1] => [b64Char (b1 / 4), b64Char (b1 % 4 * 16), '=', '=']
  | [b1, b2] => [b64Char (b1 / 4), b64Char (b1 % 4 * 16 + b2 / 16),
                 b64Char (b2 % 16 * 4), '=']
  | b1 :: b2 :: b3 :: rest => b64EncodeChunk b1 b2 b3 ++ b64Encode rest

/-- Decoder for the final 4-character group, handling `=` padding.  As in
Go's default (non-Strict) decoding, trailing padding bits are not required
to be zero. -/
def b64DecodeLast (c1 c2 c3 c4 : Char) : Option (List Nat) :=
  match b64Index c1, b64Index c2 with
  | some n1, some n2 =>
    if c3 = '=' then
      if c4 = '=' then some [n1 * 4 + n2 / 16] else none
    else
      match b64Index c3 with
      | some n3 =>
        if c4 = '=' then some [n1 * 4 + n2 / 16, n2 % 16 * 16 + n3 / 4]
        else
          match b64Index c4 with
          | some n4 =>
            some [n1 * 4 + n2 / 16, n2 % 16 * 16 + n3 / 4, n3 % 4 * 64 + n4]
          | none => none
      | none => none
  | _, _ => none

/-- `base64.StdEncoding.DecodeString`: input must be a sequence of
4-character groups; only the final group may carry `=` padding. -/
def b64Decode : List Char → Option (List Nat)
  | [] => some []
  | [c1, c2, c3, c4] => b64DecodeLast c1 c2 c3 c4
  | c1 :: c2 :: c3 :: c4 :: rest =>
    match b64Index c1, b64Index c2, b64Index c3, b64Index c4 with
    | some n1, some n2, some n3, some n4 =>
      match b64Decode rest with
      | some bs =>
        some ((n1 * 4 + n2 / 16) :: (n2 % 16 * 16 + n3 / 4) :: (n3 % 4 * 64 + n4) :: bs)
      | none => none
    | _, _, _, _ => none
  | _ => none

/-- `strings.Replace(s, string(a), string(b), -1)` for single characters. -/
def replaceChar (a b : Char) (l : List Char) : List Char :=
  l.map (fun c => if c = a then b else c)

/-- `mimeEncode` (cmdg.go 298-303): standard Base64, then `+`→`-`, `/`→`_`. -/
def mimeEncode (s : List Nat) : List Char :=
  replaceChar '/' '_' (replaceChar '+' '-' (b64Encode s))

/-- `mimeDecode` (cmdg.go 291-296): `-`→`+`, `_`→`/`, then standard Base64
decoding. -/
def mimeDecode (t : List Char) : Option (List Nat) :=
  b64Decode (replaceChar '_' '/' (replaceChar '-' '+' t))

theorem b64Index_b64Char : ∀ n : Fin 64, b64Index (b64Char n.val) = some n.val := by
  decide

theorem b64Char_not_special :
    ∀ n : Fin 64, b64Char n.val ≠ '=' ∧ b64Char n.val ≠ '-' ∧ b64Char n.val ≠ '_' := by
  decide

theorem b64Index_eq (n : Nat) (h : n < 64) : b64Index (b64Char n) = some n :=
  b64Index_b64Char ⟨n, h⟩

theorem b64Char_ne_eq (n : Nat) (h : n < 64) : b64Char n ≠ '=' :=
  (b64Char_not_special ⟨n, h⟩).1

theorem b64Encode_eq_nil : b64Encode [] = [] := by
  simp [b64Encode]

theorem b64Encode_eq_one (b1 : Nat) :
    b64Encode [b1] = [b64Char (b1 / 4), b64Char (b1 % 4 * 16), '=', '='] := by
  simp [b64Encode]

theorem b64Encode_eq_two (b1 b2 : Nat) :
    b64Encode [b1, b2] = [b64Char (b1 / 4), b64Char (b1 % 4 * 16 + b2 / 16),
      b64Char (b2 % 16 * 4), '='] := by
  simp [b64Encode]

theorem b64Encode_eq_chunk (b1 b2 b3 : Nat) (rest : List Nat) :
    b64Encode (b1 :: b2 :: b3 :: rest) = b64EncodeChunk b1 b2 b3 ++ b64Encode rest := by
  simp [b64Encode]

theorem b64Encode_ne_nil (s : List Nat) (h : s ≠ []) : b64Encode s ≠ [] := by
  match s with
  | [] => exact absurd rfl h
  | [b1] => simp [b64Encode]
  | [b1, b2] => simp [b64Encode]
  | b1 :: b2 :: b3 :: rest => simp [b64Encode, b64EncodeChunk]

theorem b64Decode_eq_nil : b64Decode [] = some [] := by
  simp [b64Decode]

theorem b64Decode_eq_four (c1 c2 c3 c4 : Char) :
    b64Decode [c1, c2, c3, c4] = b64DecodeLast c1 c2 c3 c4 := by
  simp [b64Decode]

theorem b64Decode_eq_cons (c1 c2 c3 c4 x : Char) (t : List Char) :
    b64Decode (c1 :: c2 :: c3 :: c4 :: x :: t) =
      match b64Index c1, b64Index c2, b64Index c3, b64Index c4 with
      | some n1, some n2, some n3, some n4 =>
        match b64Decode (x :: t) with
        | some bs =>
          some ((n1 * 4 + n2 / 16) :: (n2 % 16 * 16 + n3 / 4) :: (n3 % 4 * 64 + n4) :: bs)
        | none => none
      | _, _, _, _ => none := by
  simp [b64Decode]

theorem b64DecodeLast_pad2 (n1 n2 : Nat) (h1 : n1 < 64) (h2 : n2 < 64) :
    b64DecodeLast (b64Char n1) (b64Char n2) '=' '=' = some [n1 * 4 + n2 / 16] := by
  simp [b64DecodeLast, b64Index_eq n1 h1, b64Index_eq n2 h2]

theorem b64DecodeLast_pad1 (n1 n2 n3 : Nat) (h1 : n1 < 64) (h2 : n2 < 64) (h3 : n3 < 64) :
    b64DecodeLast (b64Char n1) (b64Char n2) (b64Char n3) '=' =
      some [n1 * 4 + n2 / 16, n2 % 16 * 16 + n3 / 4] := by
  simp [b64DecodeLast, b64Index_eq n1 h1, b64Index_eq n2 h2, b64Index_eq n3 h3,
    b64Char_ne_eq n3 h3]

theorem b64DecodeLast_full (n1 n2 n3 n4 : Nat)
    (h1 : n1 < 64) (h2 : n2 < 64) (h3 : n3 < 64) (h4 : n4 < 64) :
    b64DecodeLast (b64Char n1) (b64Char n2) (b64Char n3) (b64Char n4) =
      some [n1 * 4 + n2 / 16, n2 % 16 * 16 + n3 / 4, n3 % 4 * 64 + n4] := by
  simp [b64DecodeLast, b64Index_eq n1 h1, b64Index_eq n2 h2, b64Index_eq n3 h3,
    b64Index_eq n4 h4, b64Char_ne_eq n3 h3, b64Char_ne_eq n4 h4]

theorem b64_roundtrip (s : List Nat) (h : ∀ b ∈ s, b < 256) :
    b64Decode (b64Encode s) = some s := by
  match s with
  | [] => rw [b64Encode_eq_nil, b64Decode_eq_nil]
  | [b1] =>
    have hb1 : b1 < 256 := h b1 (by simp)
    rw [b64Encode_eq_one, b64Decode_eq_four,
      b64DecodeLast_pad2 (b1 / 4) (b1 % 4 * 16) (by omega) (by omega)]
    have e1 : b1 / 4 * 4 + b1 % 4 * 16 / 16 = b1 := by omega
    rw [e1]
  | [b1, b2] =>
    have hb1 : b1 < 256 := h b1 (by simp)
    have hb2 : b2 < 256 := h b2 (by simp)
    rw [b64Encode_eq_two, b64Decode_eq_four,
      b64DecodeLast_pad1 (b1 / 4) (b1 % 4 * 16 + b2 / 16) (b2 % 16 * 4)
        (by omega) (by omega) (by omega)]
    have e1 : b1 / 4 * 4 + (b1 % 4 * 16 + b2 / 16) / 16 = b1 := by omega
    have e2 : (b1 % 4 * 16 + b2 / 16) % 16 * 16 + b2 % 16 * 4 / 4 = b2 := by omega
    rw [e1, e2]
  | b1 :: b2 :: b3 :: rest =>
    have hb1 : b1 < 256 := h b1 (by simp)
    have hb2 : b2 < 256 := h b2 (by simp)
    have hb3 : b3 < 256 := h b3 (by simp)
    have hrest : ∀ b ∈ rest, b < 256 := fun b hb => h b (by simp [hb])
    have ih := b64_roundtrip rest hrest
    have e1 : b1 / 4 * 4 + (b1 % 4 * 16 + b2 / 16) / 16 = b1 := by omega
    have e2 : (b1 % 4 * 16 + b2 / 16) % 16 * 16 + (b2 % 16 * 4 + b3 / 64) / 4 = b2 := by
      omega
    have e3 : (b2 % 16 * 4 + b3 / 64) % 4 * 64 + b3 % 64 = b3 := by omega
    match rest with
    | [] =>
      rw [b64Encode_eq_chunk, b64Encode_eq_nil, List.append_nil, b64EncodeChunk,
        b64Decode_eq_four,
        b64DecodeLast_full (b1 / 4) (b1 % 4 * 16 + b2 / 16) (b2 % 16 * 4 + b3 / 64)
          (b3 % 64) (by omega) (by omega) (by omega) (by omega)]
      rw [e1, e2, e3]
    | r1 :: rs =>
      have henc : b64Encode (r1 :: rs) ≠ [] := b64Encode_ne_nil _ (by simp)
      match he : b64Encode (r1 :: rs) with
      | [] => exact absurd he henc
      | x :: t =>
        rw [b64Encode_eq_chunk, he, b64EncodeChunk, List.cons_append, List.cons_append,
          List.cons_append, List.cons_append, List.nil_append, b64Decode_eq_cons]
        rw [b64Index_eq (b1 / 4) (by omega), b64Index_eq (b1 % 4 * 16 + b2 / 16) (by omega),
          b64Index_eq (b2 % 16 * 4 + b3 / 64) (by omega), b64Index_eq (b3 % 64) (by omega)]
        rw [← he, ih]
        simp only [e1, e2, e3]
termination_by s.length

theorem pad_eq_b64Char : '=' = b64Char 64 := by decide

theorem b64Encode_mem (s : List Nat) (c : Char) (hc : c ∈ b64Encode s) :
    ∃ n, c = b64Char n := by
  match s with
  | [] =>
    rw [b64Encode_eq_nil] at hc
    simp at hc
  | [b1] =>
    rw [b64Encode_eq_one] at hc
    simp only [List.mem_cons, List.not_mem_nil, or_false] at hc
    rcases hc with h | h | h | h
    exacts [⟨_, h⟩, ⟨_, h⟩, ⟨64, h.trans pad_eq_b64Char⟩, ⟨64, h.trans pad_eq_b64Char⟩]
  | [b1, b2] =>
    rw [b64Encode_eq_two] at hc
    simp only [List.mem_cons, List.not_mem_nil, or_false] at hc
    rcases hc with h | h | h | h
    exacts [⟨_, h⟩, ⟨_, h⟩, ⟨_, h⟩, ⟨64, h.trans pad_eq_b64Char⟩]
  | b1 :: b2 :: b3 :: rest =>
    rw [b64Encode_eq_chunk] at hc
    rcases List.mem_append.mp hc with h | h
    · rw [b64EncodeChunk] at h
      simp only [List.mem_cons, List.not_mem_nil, or_false] at h
      rcases h with h | h | h | h
      exacts [⟨_, h⟩, ⟨_, h⟩, ⟨_, h⟩, ⟨_, h⟩]
    · exact b64Encode_mem rest c h
termination_by s.length

theorem b64Char_ne_subst (n : Nat) : b64Char n ≠ '-' ∧ b64Char n ≠ '_' := by
  by_cases h : n < 64
  · exact ⟨(b64Char_not_special ⟨n, h⟩).2.1, (b64Char_not_special ⟨n, h⟩).2.2⟩
  · have hlen : b64Alphabet.length = 64 := rfl
    have heq : b64Char n = '=' := by
      unfold b64Char
      exact List.getD_eq_default _ _ (by omega)
    rw [heq]
    exact ⟨by decide, by decide⟩

/-- Composition of the two encode-side and the two decode-side character
substitutions, in application order. -/
def mimeSubRound (c : Char) : Char :=
  let a := if c = '+' then '-' else c
  let b := if a = '/' then '_' else a
  let d := if b = '-' then '+' else b
  if d = '_' then '/' else d

theorem replace_eq_map (l : List Char) :
    replaceChar '_' '/' (replaceChar '-' '+' (replaceChar '/' '_'
      (replaceChar '+' '-' l))) = l.map mimeSubRound := by
  simp only [replaceChar, List.map_map]
  rfl

theorem mimeSubRound_id (c : Char) (h1 : c ≠ '-') (h2 : c ≠ '_') :
    mimeSubRound c = c := by
  by_cases hp : c = '+'
  · subst hp; decide
  by_cases hs : c = '/'
  · subst hs; decide
  unfold mimeSubRound
  simp only [if_neg hp, if_neg hs, if_neg h1, if_neg h2]

theorem replace_roundtrip (l : List Char) (h : ∀ c ∈ l, c ≠ '-' ∧ c ≠ '_') :
    replaceChar '_' '/' (replaceChar '-' '+' (replaceChar '/' '_'
      (replaceChar '+' '-' l))) = l := by
  rw [replace_eq_map]
  induction l with
  | nil => rfl
  | cons c cs ih =>
    have hc := h c (by simp)
    have hcs : ∀ x ∈ cs, x ≠ '-' ∧ x ≠ '_' := fun x hx => h x (by simp [hx])
    rw [List.map_cons, mimeSubRound_id c hc.1 hc.2, ih hcs]

/-- C3: decoding the URL-safe Base64 encoding of any byte string `s` yields
`s` back: `mimeEncode` applies standard Base64 then substitutes `+`→`-` and
`/`→`_`, `mimeDecode` reverses the substitutions and applies standard Base64
decoding, and `mimeDecode (mimeEncode s) = some s`. -/
theorem mimeDecode_mimeEncode (s : List Nat) (h : ∀ b ∈ s, b < 256) :
    mimeDecode (mimeEncode s) = some s := by
  unfold mimeDecode mimeEncode
  rw [replace_roundtrip (b64Encode s)
    (fun c hc => by
      obtain ⟨n, hn⟩ := b64Encode_mem s c hc
      rw [hn]
      exact b64Char_ne_subst n)]
  exact b64_roundtrip s h

/-- Witness for C3 at the concrete byte string `[72, 105, 33, 255, 0]`. -/
theorem mimeDecode_mimeEncode_witness :
    (∀ b ∈ [72, 105, 33, 255, 0], b < 256) ∧
      mimeDecode (mimeEncode [72, 105, 33, 255, 0]) = some [72, 105, 33, 255, 0] :=
  ⟨by decide, mimeDecode_mimeEncode [72, 105, 33, 255, 0] (by decide)⟩

/-! ## Fetch coordinator (`parallel`, cmdg.go 97-112) and the batch apply
operation (`messagesCmdApply`, cmdg.go 357-393)

`parallel.add` spawns one goroutine per operation, each of which eventually
sends a single no-argument apply closure on its own unbuffered channel;
`parallel.run` iterates over the channels **in the order they were added**
(`for _, ch := range p.chans { f := <-ch; f() }`), receiving and executing
one closure per iteration on the calling goroutine. -/

/-- `parallel.run`: execute the collected apply actions one after the other
on the calling goroutine, in the order the channels were added. -/
def parallelRun {σ : Type} (actions : List (σ → σ)) (st : σ) : σ :=
  actions.foldl (fun s a => a s) st

/-- Accumulator state mutated by the apply actions of `messagesCmdApply`:
the `ok`/`fail` counters, the representative error string `errstr`, and the
mark set. -/
structure ApplyState where
  ok : Nat
  fail : Nat
  errstr : String
  marked : String → Bool

/-- `fmt.Sprintf("Error %s %q: %v", verb, id, err)`; `%q` modelled as plain
quotation marks around the id (no escaping, ids being plain identifiers). -/
def fmtError (verb id err : String) : String :=
  "Error " ++ verb ++ " \"" ++ id ++ "\": " ++ err

/-- The apply action handed back by the `messagesCmdApply` worker for
message `id` (cmdg.go 368-381): on error it records the formatted message
and bumps `fail`; on success it deletes the mark and bumps `ok`. -/
def applyAction (verb : String) (f : String → Option String) (id : String) :
    ApplyState → ApplyState :=
  fun st =>
    match f id with
    | some e => { st with errstr := fmtError verb id e, fail := st.fail + 1 }
    | none => { st with ok := st.ok + 1, marked := fun x => if x = id then false else st.marked x }

/-- Status line printed at the end of `messagesCmdApply`. -/
inductive BatchStatus
  | someFailed (ok fail : Nat) (errstr : String)
  | allOk (ok : Nat)
deriving DecidableEq

/-- The join phase of one batch: fold the apply actions of all workers of
the batch, in submission order, over the shared state. -/
def runBatch (verb : String) (f : String → Option String) (batch : List String)
    (st : ApplyState) : ApplyState :=
  parallelRun (batch.map (applyAction verb f)) st

/-- `messagesCmdApply` (cmdg.go 357-393): fan out one worker per marked
message, run all apply actions, then report `"%d %s OK, %d failed: %s"`
when anything failed, else clear the whole mark set and report success. -/
def messagesCmdApply (verb : String) (f : String → Option String)
    (msgs : List String) (marked : String → Bool) : ApplyState × BatchStatus :=
  let batch := msgs.filter marked
  let st := runBatch verb f batch ⟨0, 0, "", marked⟩
  if 0 < st.fail then (st, .someFailed st.ok st.fail st.errstr)
  else ({ st with marked := fun _ => false }, .allOk st.ok)

theorem countP_none_add_some (f : String → Option String) (l : List String) :
    l.countP (fun id => (f id).isNone) + l.countP (fun id => (f id).isSome) = l.length := by
  induction l with
  | nil => rfl
  | cons a l ih =>
    simp only [List.countP_cons, List.length_cons]
    cases hf : f a <;> simp [hf] <;> omega

theorem runBatch_spec (verb : String) (f : String → Option String) (batch : List String)
    (st : ApplyState) :
    (runBatch verb f batch st).ok = st.ok + batch.countP (fun id => (f id).isNone) ∧
    (runBatch verb f batch st).fail = st.fail + batch.countP (fun id => (f id).isSome) ∧
    (batch.countP (fun id => (f id).isSome) = 0 →
      (runBatch verb f batch st).errstr = st.errstr) ∧
    (0 < batch.countP (fun id => (f id).isSome) →
      ∃ id ∈ batch, ∃ e, f id = some e ∧
        (runBatch verb f batch st).errstr = fmtError verb id e) := by
  induction batch generalizing st with
  | nil =>
    simp [runBatch, parallelRun]
  | cons id rest ih =>
    have step : runBatch verb f (id :: rest) st =
        runBatch verb f rest (applyAction verb f id st) := rfl
    rw [step]
    obtain ⟨hok, hfail, herr0, herrs⟩ := ih (applyAction verb f id st)
    cases hf : f id with
    | some e =>
      have haok : (applyAction verb f id st).ok = st.ok := by
        simp [applyAction, hf]
      have hafail : (applyAction verb f id st).fail = st.fail + 1 := by
        simp [applyAction, hf]
      have haerr : (applyAction verb f id st).errstr = fmtError verb id e := by
        simp [applyAction, hf]
      have hcS : List.countP (fun i => (f i).isSome) (id :: rest) =
          List.countP (fun i => (f i).isSome) rest + 1 := by
        simp [List.countP_cons, hf]
      have hcN : List.countP (fun i => (f i).isNone) (id :: rest) =
          List.countP (fun i => (f i).isNone) rest := by
        simp [List.countP_cons, hf]
      refine ⟨?_, ?_, ?_, ?_⟩
      · rw [hok, haok, hcN]
      · rw [hfail, hafail, hcS]
        omega
      · intro h0
        rw [hcS] at h0
        exact absurd h0 (by omega)
      · intro _
        by_cases hrest : 0 < rest.countP (fun i => (f i).isSome)
        · obtain ⟨id', hid', e', hfe', herr⟩ := herrs hrest
          exact ⟨id', by simp [hid'], e', hfe', herr⟩
        · have h0 : rest.countP (fun i => (f i).isSome) = 0 := by omega
          refine ⟨id, by simp, e, hf, ?_⟩
          rw [herr0 h0, haerr]
    | none =>
      have haok : (applyAction verb f id st).ok = st.ok + 1 := by
        simp [applyAction, hf]
      have hafail : (applyAction verb f id st).fail = st.fail := by
        simp [applyAction, hf]
      have haerr : (applyAction verb f id st).errstr = st.errstr := by
        simp [applyAction, hf]
      have hcS : List.countP (fun i => (f i).isSome) (id :: rest) =
          List.countP (fun i => (f i).isSome) rest := by
        simp [List.countP_cons, hf]
      have hcN : List.countP (fun i => (f i).isNone) (id :: rest) =
          List.countP (fun i => (f i).isNone) rest + 1 := by
        simp [List.countP_cons, hf]
      refine ⟨?_, ?_, ?_, ?_⟩
      · rw [hok, haok, hcN]
        omega
      · rw [hfail, hafail, hcS]
      · intro h0
        rw [hcS] at h0
        rw [herr0 h0, haerr]
      · intro hpos
        rw [hcS] at hpos
        obtain ⟨id', hid', e', hfe', herr⟩ := herrs hpos
        exact ⟨id', by simp [hid'], e', hfe', herr⟩

/-- C1: for every batch of `n` independent remote operations handed to the
fetch coordinator by `messagesCmdApply` (one per marked message), exactly
`n` apply actions are folded sequentially on the caller before the
coordinator returns (`ok` and `fail` together account for all `n`), and a
batch in which `k` operations fail and `n - k` succeed reports
`ok = n - k` and `fail = k` on the status line together with the error
string of one of the failed operations. -/
theorem messagesCmdApply_counts (verb : String) (f : String → Option String)
    (msgs : List String) (marked : String → Bool) :
    ((msgs.filter marked).map (applyAction verb f)).length = (msgs.filter marked).length ∧
    (messagesCmdApply verb f msgs marked).1.ok + (messagesCmdApply verb f msgs marked).1.fail =
      (msgs.filter marked).length ∧
    (messagesCmdApply verb f msgs marked).1.ok =
      (msgs.filter marked).length -
        (msgs.filter marked).countP (fun id => (f id).isSome) ∧
    (messagesCmdApply verb f msgs marked).1.fail =
      (msgs.filter marked).countP (fun id => (f id).isSome) ∧
    (0 < (msgs.filter marked).countP (fun id => (f id).isSome) →
      ∃ id ∈ msgs.filter marked, ∃ e, f id = some e ∧
        (messagesCmdApply verb f msgs marked).2 =
          BatchStatus.someFailed
            ((msgs.filter marked).length -
              (msgs.filter marked).countP (fun id => (f id).isSome))
            ((msgs.filter marked).countP (fun id => (f id).isSome))
            (fmtError verb id e)) ∧
    ((msgs.filter marked).countP (fun id => (f id).isSome) = 0 →
      (messagesCmdApply verb f msgs marked).2 =
        BatchStatus.allOk (msgs.filter marked).length) := by
  obtain ⟨hok, hfail, herr0, herrs⟩ :=
    runBatch_spec verb f (msgs.filter marked) ⟨0, 0, "", marked⟩
  dsimp only [] at hok hfail
  have hcnt := countP_none_add_some f (msgs.filter marked)
  have hres : messagesCmdApply verb f msgs marked =
      (if 0 < (runBatch verb f (msgs.filter marked) ⟨0, 0, "", marked⟩).fail then
        (runBatch verb f (msgs.filter marked) ⟨0, 0, "", marked⟩,
          BatchStatus.someFailed
            (runBatch verb f (msgs.filter marked) ⟨0, 0, "", marked⟩).ok
            (runBatch verb f (msgs.filter marked) ⟨0, 0, "", marked⟩).fail
            (runBatch verb f (msgs.filter marked) ⟨0, 0, "", marked⟩).errstr)
      else
        ({ runBatch verb f (msgs.filter marked) ⟨0, 0, "", marked⟩ with
            marked := fun _ => false },
          BatchStatus.allOk
            (runBatch verb f (msgs.filter marked) ⟨0, 0, "", marked⟩).ok)) := rfl
  by_cases hpos : 0 < (runBatch verb f (msgs.filter marked) ⟨0, 0, "", marked⟩).fail
  · rw [hres, if_pos hpos]
    refine ⟨by simp, by dsimp only []; omega, by dsimp only []; omega,
      by dsimp only []; omega, ?_, ?_⟩
    · intro hk
      obtain ⟨id, hid, e, hfe, herr⟩ := herrs hk
      refine ⟨id, hid, e, hfe, ?_⟩
      dsimp only []
      rw [herr]
      congr 1 <;> omega
    · intro hk
      rw [hfail, hk] at hpos
      exact absurd hpos (by omega)
  · rw [hres, if_neg hpos]
    have hk0 : (msgs.filter marked).countP (fun id => (f id).isSome) = 0 := by
      rw [hfail] at hpos
      omega
    refine ⟨by simp, by dsimp only []; omega, by dsimp only []; omega,
      by dsimp only []; omega, ?_, ?_⟩
    · intro hk
      exact absurd hk (by omega)
    · intro _
      dsimp only []
      congr 1
      omega

/-- Witness for C1: three messages, two marked, the remote call failing on
"m2": the batch reports one success and one failure together with the
formatted error of "m2". -/
theorem messagesCmdApply_counts_witness :
    ∃ id ∈ List.filter (fun id => !(id == "m3")) ["m1", "m2", "m3"], ∃ e,
      (if id == "m2" then some "boom" else none) = some e ∧
        (messagesCmdApply "archiving" (fun id => if id == "m2" then some "boom" else none)
            ["m1", "m2", "m3"] (fun id => !(id == "m3"))).2 =
          BatchStatus.someFailed 1 1 (fmtError "archiving" id e) :=
  (messagesCmdApply_counts "archiving" (fun id => if id == "m2" then some "boom" else none)
    ["m1", "m2", "m3"] (fun id => !(id == "m3"))).2.2.2.2.1 (by decide)

/-! ## Worker failure policy (C5): `list` vs `messagesCmdApply`

The worker spawned per message in `list` (cmdg.go 138-149) calls
`log.Fatalf("Get message: %v", err)` when the remote Get fails — it
terminates the whole process instead of handing back an apply action.  The
workers of `messagesCmdApply` (cmdg.go 368-381) hand back an apply action
on both the success and the failure path. -/

/-- What a fetch worker does with its channel: either it hands a single
apply action back, or it never does because it terminated the process
(`log.Fatalf`). -/
inductive WorkerOutcome
  | handsApply
  | fatalExit (msg : String)
deriving DecidableEq

/-- Worker body of `list` (cmdg.go 140-148): fetch the full message; on
error call `log.Fatalf("Get message: %v", err)`, otherwise send the apply
action that appends the fetched message. -/
def listWorker (get : String → Except String String) (id : String) : WorkerOutcome :=
  match get id with
  | .error e => .fatalExit ("Get message: " ++ e)
  | .ok _ => .handsApply

/-- Worker body of `messagesCmdApply` (cmdg.go 368-381): an apply action is
sent on the channel on the error path and on the success path alike. -/
def applyWorker (f : String → Option String) (id : String) : WorkerOutcome :=
  match f id with
  | some _ => .handsApply
  | none => .handsApply

/-- C5 counterexample: in the message-list fetch batch, a failing remote
call is not reported through the worker's apply action — the worker
terminates the process via `log.Fatalf`, so the claim "a remote-call error
never crashes the session" fails on the `list` batch. -/
theorem listWorker_fatal_counterexample :
    listWorker (fun _ => Except.error "network down") "m1" =
        WorkerOutcome.fatalExit "Get message: network down" ∧
      WorkerOutcome.fatalExit "Get message: network down" ≠ WorkerOutcome.handsApply := by
  exact ⟨rfl, by decide⟩

/-- C5 amended: in the marked-batch apply path (`messagesCmdApply`) every
worker — failing or succeeding — hands back an apply action; a failing
worker's action increments the failure counter and records the message, and
any batch with failures surfaces an aggregate status line with both counts
and a representative error rather than terminating.  (In the list-refresh
batch, by contrast, a failing Get terminates the process.) -/
theorem applyWorker_failure_policy (verb : String) (f : String → Option String)
    (id : String) (st : ApplyState) :
    applyWorker f id = WorkerOutcome.handsApply ∧
    (∀ e, f id = some e →
      (applyAction verb f id st).fail = st.fail + 1 ∧
      (applyAction verb f id st).errstr = fmtError verb id e) ∧
    (∀ msgs marked, 0 < (messagesCmdApply verb f msgs marked).1.fail →
      ∃ okCount failCount err,
        (messagesCmdApply verb f msgs marked).2 =
          BatchStatus.someFailed okCount failCount err ∧
        0 < failCount) := by
  refine ⟨?_, ?_, ?_⟩
  · cases hf : f id <;> simp [applyWorker, hf]
  · intro e hf
    constructor <;> simp [applyAction, hf]
  · intro msgs marked hpos
    by_cases hb : 0 < (runBatch verb f (msgs.filter marked) ⟨0, 0, "", marked⟩).fail
    · refine ⟨(runBatch verb f (msgs.filter marked) ⟨0, 0, "", marked⟩).ok,
        (runBatch verb f (msgs.filter marked) ⟨0, 0, "", marked⟩).fail,
        (runBatch verb f (msgs.filter marked) ⟨0, 0, "", marked⟩).errstr, ?_, hb⟩
      show (if 0 < (runBatch verb f (msgs.filter marked) ⟨0, 0, "", marked⟩).fail then _
        else _ : ApplyState × BatchStatus).2 = _
      rw [if_pos hb]
    · exfalso
      have : (messagesCmdApply verb f msgs marked).1.fail =
          (runBatch verb f (msgs.filter marked) ⟨0, 0, "", marked⟩).fail := by
        show ((if 0 < (runBatch verb f (msgs.filter marked) ⟨0, 0, "", marked⟩).fail then _
          else _ : ApplyState × BatchStatus)).1.fail = _
        rw [if_neg hb]
      rw [this] at hpos
      exact hb hpos

/-- Witness for C5 at a concrete failing batch. -/
theorem applyWorker_failure_policy_witness :
    applyWorker (fun _ => some "boom") "m1" = WorkerOutcome.handsApply ∧
      (applyAction "trashing" (fun _ => some "boom") "m1" ⟨0, 0, "", fun _ => false⟩).fail
        = 0 + 1 :=
  ⟨(applyWorker_failure_policy "trashing" (fun _ => some "boom") "m1"
      ⟨0, 0, "", fun _ => false⟩).1,
   ((applyWorker_failure_policy "trashing" (fun _ => some "boom") "m1"
      ⟨0, 0, "", fun _ => false⟩).2.1 "boom" rfl).1⟩

/-! ## Apply order of `parallel.run` (C9)

`run` iterates `p.chans` in the order the channels were added; each
iteration blocks on that single unbuffered channel, so the `i`-th apply
action always executes in the `i`-th position, no earlier than worker `i`'s
completion time and no earlier than the previous apply. -/

/-- Timed trace of `parallel.run` for workers with completion times `ts`:
`runTrace ts i clock` returns `(worker index, apply time)` pairs in
execution order, the `i`-th receive completing at the later of the previous
apply time and the worker's own completion time. -/
def runTrace : List Nat → Nat → Nat → List (Nat × Nat)
  | [], _, _ => []
  | t :: rest, i, clock => (i, max clock t) :: runTrace rest (i + 1) (max clock t)

/-- The order in which `parallel.run` executes the apply actions. -/
def applyOrderOf (ts : List Nat) : List Nat :=
  (runTrace ts 0 0).map Prod.fst

/-- The order in which worker results become available: worker indices
sorted by completion time (ties by index). -/
def completionOrder (ts : List Nat) : List Nat :=
  List.insertionSort (fun i j => ts.getD i 0 ≤ ts.getD j 0) (List.range ts.length)

/-- C9 counterexample: with completion times `[5, 1]`, worker 1's result is
available first (`completionOrder = [1, 0]`), yet the apply actions run as
`[0, 1]` — the coordinator does *not* apply in availability order, and it
*does* guarantee submission order. -/
theorem applyOrder_counterexample :
    completionOrder [5, 1] = [1, 0] ∧ applyOrderOf [5, 1] = [0, 1] ∧
      applyOrderOf [5, 1] ≠ completionOrder [5, 1] := by
  refine ⟨?_, rfl, ?_⟩ <;> decide

theorem runTrace_fst (ts : List Nat) :
    ∀ (i c : Nat), (runTrace ts i c).map Prod.fst = List.range' i ts.length := by
  induction ts with
  | nil => intro i c; rfl
  | cons t rest ih =>
    intro i c
    simp only [runTrace, List.map_cons, List.length_cons, List.range'_succ]
    rw [ih (i + 1) (max c t)]

theorem runTrace_clock_le (ts : List Nat) :
    ∀ (i c : Nat), ∀ p ∈ runTrace ts i c, c ≤ p.2 := by
  induction ts with
  | nil => intro i c p hp; simp [runTrace] at hp
  | cons t rest ih =>
    intro i c p hp
    simp only [runTrace, List.mem_cons] at hp
    rcases hp with h | h
    · rw [h]; exact Nat.le_max_left c t
    · exact le_trans (Nat.le_max_left c t) (ih (i + 1) (max c t) p h)

/-- C9 amended: the coordinator invokes the apply actions sequentially on
the calling context, always in **submission order** (the order in which
`add` was called), regardless of the workers' completion times; apply times
are monotone along the trace (one apply at a time). -/
theorem applyOrder_submission (ts : List Nat) :
    applyOrderOf ts = List.range ts.length ∧
    List.Pairwise (fun p q => p.2 ≤ q.2) (runTrace ts 0 0) := by
  constructor
  · rw [applyOrderOf, runTrace_fst ts 0 0, List.range_eq_range']
  · suffices h : ∀ (i c : Nat), List.Pairwise (fun p q => p.2 ≤ q.2) (runTrace ts i c) from
      h 0 0
    induction ts with
    | nil => intro i c; simp [runTrace]
    | cons t rest ih =>
      intro i c
      simp only [runTrace, List.pairwise_cons]
      exact ⟨fun p hp => runTrace_clock_le rest (i + 1) (max c t) p hp, ih (i + 1) (max c t)⟩

/-! ## List model (`messageList`, cmdg.go 114-119, 234-251) and refresh
(`refreshMessages`, cmdg.go 266-280)

`current` is a Go `int` and may transiently become `-1` inside
`fixCurrent` on an empty list, so it is modelled as `Int`.  Messages are
identified by their ids; the mark map's default-false read is modelled as a
`String → Bool` function. -/

/-- The list model: cursor, mark set and backing sequence of message ids. -/
structure MessageList where
  current : Int
  marked : String → Bool
  messages : List String

/-- `messageList.next` (cmdg.go 234-238). -/
def MessageList.next (l : MessageList) : MessageList :=
  if l.current < (l.messages.length : Int) - 1 then { l with current := l.current + 1 }
  else l

/-- `messageList.prev` (cmdg.go 239-243). -/
def MessageList.prev (l : MessageList) : MessageList :=
  if 0 < l.current then { l with current := l.current - 1 } else l

/-- `messageList.fixCurrent` (cmdg.go 244-251): clamp from above to
`len-1` (which is `-1` on an empty list), then from below to `0`. -/
def MessageList.fixCurrent (l : MessageList) : MessageList :=
  let l1 := if (l.messages.length : Int) ≤ l.current then
    { l with current := (l.messages.length : Int) - 1 } else l
  if l1.current < 0 then { l1 with current := 0 } else l1

/-- `refreshMessages` (cmdg.go 266-280): fetch a fresh item sequence, put
back the previous cursor and the previous mark map wholesale, then clamp
the cursor. -/
def refreshMessages (newMsgs : List String) (l : MessageList) : MessageList :=
  MessageList.fixCurrent { current := l.current, marked := l.marked, messages := newMsgs }

/-- One user-visible list-model operation. -/
inductive ListOp
  | next
  | prev
  | refresh (newMsgs : List String)

/-- Apply a list-model operation. -/
def applyListOp (l : MessageList) : ListOp → MessageList
  | .next => l.next
  | .prev => l.prev
  | .refresh ms => refreshMessages ms l

/-- The cursor invariant of the list model. -/
def ListInv (l : MessageList) : Prop :=
  (l.messages = [] → l.current = 0) ∧
  (l.messages ≠ [] → 0 ≤ l.current ∧ l.current < l.messages.length)

theorem listInv_next (l : MessageList) (h : ListInv l) : ListInv l.next := by
  obtain ⟨hnil, hpos⟩ := h
  unfold MessageList.next
  by_cases hc : l.current < (l.messages.length : Int) - 1
  · rw [if_pos hc]
    constructor
    · intro hm
      exfalso
      rw [hnil hm, hm] at hc
      simp at hc
    · intro hm
      have := hpos hm
      dsimp only []
      omega
  · rw [if_neg hc]
    exact ⟨hnil, hpos⟩

theorem listInv_prev (l : MessageList) (h : ListInv l) : ListInv l.prev := by
  obtain ⟨hnil, hpos⟩ := h
  unfold MessageList.prev
  by_cases hc : 0 < l.current
  · rw [if_pos hc]
    constructor
    · intro hm
      exfalso
      rw [hnil hm] at hc
      omega
    · intro hm
      have := hpos hm
      dsimp only []
      omega
  · rw [if_neg hc]
    exact ⟨hnil, hpos⟩

theorem listInv_fixCurrent (l : MessageList) (h0 : 0 ≤ l.current) :
    ListInv l.fixCurrent := by
  unfold MessageList.fixCurrent
  by_cases hhi : (l.messages.length : Int) ≤ l.current
  · rw [if_pos hhi]
    by_cases hlo : (l.messages.length : Int) - 1 < 0
    · simp only [if_pos hlo]
      constructor
      · intro _; rfl
      · intro hm
        exfalso
        have : l.messages.length ≠ 0 := fun he => hm (List.eq_nil_of_length_eq_zero he)
        omega
    · simp only [if_neg hlo]
      constructor
      · intro hm
        exfalso
        rw [hm] at hlo
        exact hlo (by decide)
      · intro hm
        have : l.messages.length ≠ 0 := fun he => hm (List.eq_nil_of_length_eq_zero he)
        constructor <;> dsimp only [] <;> omega
  · rw [if_neg hhi]
    by_cases hlo : l.current < 0
    · rw [if_pos hlo]
      exact absurd hlo (by omega)
    · rw [if_neg hlo]
      constructor
      · intro hm
        rw [hm] at hhi
        simp at hhi
        omega
      · intro hm
        constructor <;> omega

theorem listInv_refresh (l : MessageList) (h : ListInv l) (newMsgs : List String) :
    ListInv (refreshMessages newMsgs l) := by
  obtain ⟨hnil, hpos⟩ := h
  apply listInv_fixCurrent
  dsimp only []
  by_cases hm : l.messages = []
  · rw [hnil hm]
  · exact (hpos hm).1

/-- C2: along every sequence of refresh / moveNext / movePrevious
operations the cursor satisfies `0 ≤ current < len(items)` whenever the
item sequence is non-empty and `current = 0` when it is empty; and every
mark present before a refresh whose id is still present in the refreshed
items is still present after the refresh (the refresh in fact keeps the
whole mark map). -/
theorem listModel_invariant (ops : List ListOp) (l : MessageList) (h : ListInv l) :
    ListInv (ops.foldl applyListOp l) ∧
    (∀ newMsgs id, id ∈ newMsgs → l.marked id = true →
      (refreshMessages newMsgs l).marked id = true) := by
  constructor
  · induction ops generalizing l with
    | nil => exact h
    | cons op rest ih =>
      rw [List.foldl_cons]
      apply ih
      cases op with
      | next => exact listInv_next l h
      | prev => exact listInv_prev l h
      | refresh ms => exact listInv_refresh l h ms
  · intro newMsgs id _ hmk
    have hkeep : (refreshMessages newMsgs l).marked = l.marked := by
      unfold refreshMessages MessageList.fixCurrent
      by_cases hhi : ((newMsgs.length : Int) ≤ l.current) <;>
        by_cases hlo : (0 : Int) ≤ l.current <;>
          simp [hhi, hlo] <;> split <;> rfl
    rw [hkeep]
    exact hmk

/-- Witness for C2 at a concrete operation sequence and start state. -/
theorem listModel_invariant_witness :
    ListInv ([ListOp.next, ListOp.refresh ["a", "b"], ListOp.prev,
        ListOp.refresh [], ListOp.next].foldl applyListOp
      ⟨0, fun i => i == "a", ["a", "b", "c"]⟩) ∧
    (∀ newMsgs id, id ∈ newMsgs →
      (fun i => i == "a") id = true →
      (refreshMessages newMsgs ⟨0, fun i => i == "a", ["a", "b", "c"]⟩).marked id = true) :=
  listModel_invariant _ ⟨0, fun i => i == "a", ["a", "b", "c"]⟩
    (by constructor <;> intro h <;> simp at h ⊢)

/-! ## Mark toggling (C10): `messagesCmdMark` (cmdg.go 341-344) and
`openMessageCmdMark` (cmdg.go 402-405) both execute
`messages.marked[id] = !messages.marked[id]` for the current message's id
and then advance the cursor. -/

/-- The toggle `marked[id] = !marked[id]` on the default-false mark map. -/
def toggleMark (marked : String → Bool) (id : String) : String → Bool :=
  fun x => if x = id then !marked id else marked x

/-- Id of the cursor row, `messages.messages[messages.current].Id`
(in-range indexing; cmdg.go would panic out of range). -/
def currentId (l : MessageList) : String :=
  l.messages.getD l.current.toNat ""

/-- `messagesCmdMark` (cmdg.go 341-344): toggle the mark of the current
row, then move the cursor down. -/
def messagesCmdMark (l : MessageList) : MessageList :=
  MessageList.next { l with marked := toggleMark l.marked (currentId l) }

/-- C10: toggling the mark of an id twice in succession restores the
marked-set membership of every id, and toggling one id never changes the
membership of any other id; `messagesCmdMark` performs exactly this toggle
at the current row's id. -/
theorem toggleMark_involutive (marked : String → Bool) (id x : String) (l : MessageList) :
    toggleMark (toggleMark marked id) id x = marked x ∧
    (x ≠ id → toggleMark marked id x = marked x) ∧
    (messagesCmdMark l).marked = toggleMark l.marked (currentId l) := by
  refine ⟨?_, ?_, ?_⟩
  · unfold toggleMark
    by_cases hx : x = id
    · simp [hx]
    · simp [hx]
  · intro hx
    unfold toggleMark
    simp [hx]
  · unfold messagesCmdMark MessageList.next
    split <;> rfl

/-- Witness for C10 at concrete map, ids and state. -/
theorem toggleMark_involutive_witness :
    toggleMark (toggleMark (fun i => i == "a") "b") "b" "b" = (fun i => i == "a") "b" ∧
      toggleMark (fun i => i == "a") "b" "c" = (fun i => i == "a") "c" :=
  ⟨(toggleMark_involutive (fun i => i == "a") "b" "b" ⟨0, fun _ => false, []⟩).1,
   (toggleMark_involutive (fun i => i == "a") "b" "c" ⟨0, fun _ => false, []⟩).2.1
     (by decide)⟩

/-! ## Editor mode loop (`runEditorMode`, cmdg.go 468-503)

The loop runs the external editor, splits the returned text at the first
blank line (`strings.SplitN(s, "\n\n", 2)`), searches the header for the
directive matched by ``sendHeaderRE = `(?:^|\n)Mode: (\w+)(?:$|\n)` ``
(cmdg.go 67), lowercases the captured word, and accepts `send`, `draft` or
`abort`; on any failure it re-invokes the editor seeded with the
previously-returned text.  Text is modelled as `List Char` (the strings
involved are byte strings; `strings.ToLower` and Go's ASCII-only `\w` agree
with the ASCII model used here). -/

/-- Go regexp `\w`: ASCII letters, digits and underscore. -/
def isWordChar (c : Char) : Bool :=
  (48 ≤ c.toNat && c.toNat ≤ 57) || (65 ≤ c.toNat && c.toNat ≤ 90) ||
    (97 ≤ c.toNat && c.toNat ≤ 122) || c = '_'

/-- `strings.SplitN(s, "\n\n", 2)`: split at the first blank line into
header and body; `none` when no blank line exists. -/
def splitFirstBlank : List Char → Option (List Char × List Char)
  | [] => none
  | '\n' :: '\n' :: rest => some ([], rest)
  | c :: rest =>
    match splitFirstBlank rest with
    | some (h, b) => some (c :: h, b)
    | none => none

/-- Match of `Mode: (\w+)(?:$|\n)` anchored at the start of `l`: the word
is the maximal run of word characters after `"Mode: "` and must be followed
by a newline or the end of the text. -/
def modeAt : List Char → Option (List Char)
  | 'M' :: 'o' :: 'd' :: 'e' :: ':' :: ' ' :: rest =>
    let w := rest.takeWhile isWordChar
    match rest.dropWhile isWordChar with
    | [] => if w.isEmpty then none else some w
    | '\n' :: _ => if w.isEmpty then none else some w
    | _ => none
  | _ => none

/-- Scan for ``sendHeaderRE`` matches beginning after a newline. -/
def findModeAux : List Char → Option (List Char)
  | [] => none
  | '\n' :: rest =>
    match modeAt rest with
    | some w => some w
    | none => findModeAux rest
  | _ :: rest => findModeAux rest

/-- `sendHeaderRE.FindStringSubmatch` (leftmost match): the directive may
sit at the start of the text or after any newline. -/
def findMode (l : List Char) : Option (List Char) :=
  match modeAt l with
  | some w => some w
  | none => findModeAux l

/-- `strings.ToLower` on the captured word (ASCII, as produced by `\w+`). -/
def lowerWord (w : List Char) : List Char := w.map Char.toLower

def sendWord : List Char := ['s', 'e', 'n', 'd']

def draftWord : List Char := ['d', 'r', 'a', 'f', 't']

def abortWord : List Char := ['a', 'b', 'o', 'r', 't']

/-- One validation pass of the loop body over an editor-returned text:
`some mode` when the text is accepted, `none` when the loop retries. -/
def textMode (s : List Char) : Option (List Char) :=
  match splitFirstBlank s with
  | none => none
  | some (header, _) =>
    match findMode header with
    | none => none
    | some w =>
      let mode := lowerWord w
      if mode = sendWord ∨ mode = draftWord ∨ mode = abortWord then some mode else none

/-- `runEditorMode` (cmdg.go 468-503) for a deterministic editor `ed`
mapping the seed text to the returned text, with explicit fuel for the
unbounded retry loop: returns `(mode, text)` on acceptance.  On an invalid
text the loop re-invokes the editor seeded with that text. -/
def runEditorMode (ed : List Char → List Char) : Nat → List Char → Option (List Char × List Char)
  | 0, _ => none
  | fuel + 1, input =>
    match textMode (ed input) with
    | some mode => some (mode, ed input)
    | none => runEditorMode ed fuel (ed input)

/-- The send/draft dispatch of `messagesCmdCompose` (cmdg.go 514-523):
only mode `send` triggers a remote send (of the mime-encoded text); `draft`
is a TODO no-op and `abort` never reaches a send. -/
def composeEffect (mode : List Char) (s : List Char) : Option (List Char) :=
  if mode = sendWord then some (mimeEncode (s.map Char.toNat)) else none

def abortDemoText : List Char :=
  ['M', 'o', 'd', 'e', ':', ' ', 'A', 'b', 'o', 'r', 't', '\n', '\n',
   'i', 'g', 'n', 'o', 'r', 'e', 'd']

/-- C4: the mode-validation loop accepts a text exactly when it splits at
the first blank line into header and body and the header carries a
`Mode: <word>` directive whose lowercased word is `send`, `draft` or
`abort`; an accepted text returns immediately with that mode, an invalid
text re-invokes the editor seeded with the previously returned text, the
text `"Mode: Abort\n\nignored"` is accepted immediately with mode `abort`,
and mode `abort` triggers no send or draft action. -/
theorem runEditorMode_succ (ed : List Char → List Char) (fuel : Nat) (input : List Char) :
    runEditorMode ed (fuel + 1) input =
      match textMode (ed input) with
      | some mode => some (mode, ed input)
      | none => runEditorMode ed fuel (ed input) := by
  conv_lhs => rw [runEditorMode]

theorem runEditorMode_spec :
    (∀ s m, textMode s = some m ↔
      ∃ header body w, splitFirstBlank s = some (header, body) ∧
        findMode header = some w ∧ m = lowerWord w ∧
        (m = sendWord ∨ m = draftWord ∨ m = abortWord)) ∧
    (∀ ed fuel input m, textMode (ed input) = some m →
      runEditorMode ed (fuel + 1) input = some (m, ed input)) ∧
    (∀ ed fuel input, textMode (ed input) = none →
      runEditorMode ed (fuel + 1) input = runEditorMode ed fuel (ed input)) ∧
    textMode abortDemoText = some abortWord ∧
    (∀ s, composeEffect abortWord s = none) := by
  refine ⟨?_, ?_, ?_, by decide, ?_⟩
  · intro s m
    constructor
    · intro h
      unfold textMode at h
      cases hsp : splitFirstBlank s with
      | none => rw [hsp] at h; exact absurd h (by simp)
      | some p =>
        obtain ⟨header, body⟩ := p
        rw [hsp] at h
        dsimp only [] at h
        cases hfm : findMode header with
        | none => rw [hfm] at h; exact absurd h (by simp)
        | some w =>
          rw [hfm] at h
          dsimp only [] at h
          by_cases hmode : lowerWord w = sendWord ∨ lowerWord w = draftWord ∨
              lowerWord w = abortWord
          · rw [if_pos hmode] at h
            obtain rfl : lowerWord w = m := by
              injection h
            exact ⟨header, body, w, rfl, hfm, rfl, hmode⟩
          · rw [if_neg hmode] at h
            exact absurd h (by simp)
    · rintro ⟨header, body, w, hsp, hfm, rfl, hmode⟩
      unfold textMode
      rw [hsp]
      dsimp only []
      rw [hfm]
      dsimp only []
      rw [if_pos hmode]
  · intro ed fuel input m h
    rw [runEditorMode_succ, h]
  · intro ed fuel input h
    rw [runEditorMode_succ, h]
  · intro s
    unfold composeEffect
    rw [if_neg (by decide)]

/-- Witness for C4: a one-shot editor returning a valid send text is
accepted, and an editor that first returns an invalid text is re-run seeded
with that text. -/
theorem runEditorMode_spec_witness :
    runEditorMode (fun _ => ['M', 'o', 'd', 'e', ':', ' ', 'S', 'e', 'n', 'd',
        '\n', '\n', 'h', 'i']) 1 [] =
      some (sendWord, ['M', 'o', 'd', 'e', ':', ' ', 'S', 'e', 'n', 'd',
        '\n', '\n', 'h', 'i']) ∧
    runEditorMode (fun _ => ['o', 'o', 'p', 's']) 3 [] =
      runEditorMode (fun _ => ['o', 'o', 'p', 's']) 2 ['o', 'o', 'p', 's'] :=
  ⟨runEditorMode_spec.2.1 _ 0 [] sendWord (by decide),
   runEditorMode_spec.2.2.1 _ 2 [] (by decide)⟩

/-! ## Directory listing (`readDir` and `sortFiles.Less`, file-dialog source
lines 22-70)

`readDir` stats `.` and `..`, reads the directory, sorts the entries with
`sort.Sort(sortFiles(files))` — directories first, then lexicographically
by name — and prepends the two synthetic dot entries.  Go's `sort.Sort`
guarantees a permutation of the input that is sorted with respect to
`Less`; it is modelled by insertion sort.  Go compares names by byte-wise
`<` on strings, which agrees with code-point lexicographic order on
UTF-8. -/

/-- A directory entry as far as the listing logic observes it. -/
structure DirEntry where
  name : List Char
  isDir : Bool
deriving DecidableEq

/-- Byte-wise lexicographic `<` of Go strings (on code points). -/
def nameLt : List Char → List Char → Bool
  | [], [] => false
  | [], _ :: _ => true
  | _ :: _, [] => false
  | x :: xs, y :: ys =>
    if x.toNat < y.toNat then true
    else if y.toNat < x.toNat then false
    else nameLt xs ys

/-- `sortFiles.Less` (file-dialog source lines 26-34): directories sort
before non-directories, ties broken by name. -/
def fileLess (a b : DirEntry) : Bool :=
  if a.isDir && !b.isDir then true
  else if !a.isDir && b.isDir then false
  else nameLt a.name b.name

/-- The non-strict order induced by `sortFiles.Less`, as guaranteed for
consecutive elements of a `sort.Sort` result: `a` may precede `b` when
`Less b a` is false. -/
def fileLE (a b : DirEntry) : Prop := fileLess b a = false

instance : DecidableRel fileLE := fun _ _ => instDecidableEqBool _ _

theorem nameLt_asymm : ∀ a b : List Char, nameLt a b = true → nameLt b a = false
  | [], [] => by simp [nameLt]
  | [], _ :: _ => by simp [nameLt]
  | _ :: _, [] => by simp [nameLt]
  | x :: xs, y :: ys => by
    intro h
    simp only [nameLt] at h ⊢
    split_ifs at h with hxy hyx
    · rw [if_neg (show ¬y.toNat < x.toNat by omega), if_pos hxy]
    · rw [if_neg hyx, if_neg hxy]
      exact nameLt_asymm xs ys h

theorem nameLt_neg_trans :
    ∀ a b c : List Char, nameLt b a = false → nameLt c b = false → nameLt c a = false
  | [], _, c, _, _ => by cases c <;> simp [nameLt]
  | _ :: _, [], _, h1, _ => by simp [nameLt] at h1
  | _ :: _, _ :: _, [], _, h2 => by simp [nameLt] at h2
  | x :: xs, y :: ys, z :: zs, h1, h2 => by
    simp only [nameLt] at h1 h2 ⊢
    split_ifs at h1 with hyx hxy
    · split_ifs at h2 with hzy hyz
      · split_ifs with hzx hxz
        · exact absurd hzx (by omega)
        · rfl
        · exact absurd (show x.toNat < z.toNat by omega) hxz
      · split_ifs with hzx hxz
        · exact absurd hzx (by omega)
        · rfl
        · exact absurd (show x.toNat < z.toNat by omega) hxz
    · split_ifs at h2 with hzy hyz
      · split_ifs with hzx hxz
        · exact absurd hzx (by omega)
        · rfl
        · exact absurd (show x.toNat < z.toNat by omega) hxz
      · split_ifs with hzx hxz
        · exact absurd hzx (by omega)
        · rfl
        · exact nameLt_neg_trans xs ys zs h1 h2

theorem fileLess_asymm (a b : DirEntry) (h : fileLess a b = true) :
    fileLess b a = false := by
  unfold fileLess at h ⊢
  cases ha : a.isDir <;> cases hb : b.isDir <;> simp [ha, hb] at h ⊢
  · exact nameLt_asymm a.name b.name h
  · exact nameLt_asymm a.name b.name h

theorem fileLE_total (a b : DirEntry) : fileLE a b ∨ fileLE b a := by
  cases hab : fileLess a b with
  | false => exact Or.inr hab
  | true => exact Or.inl (fileLess_asymm a b hab)

theorem fileLE_transitive (a b c : DirEntry) (h1 : fileLE a b) (h2 : fileLE b c) :
    fileLE a c := by
  unfold fileLE fileLess at h1 h2 ⊢
  cases ha : a.isDir <;> cases hb : b.isDir <;> cases hc : c.isDir <;>
    simp [ha, hb, hc] at h1 h2 ⊢
  · exact nameLt_neg_trans a.name b.name c.name h1 h2
  · exact nameLt_neg_trans a.name b.name c.name h1 h2

instance : IsTotal DirEntry fileLE := ⟨fileLE_total⟩

instance : IsTrans DirEntry fileLE := ⟨fileLE_transitive⟩

def dotName : List Char := ['.']

def dotdotName : List Char := ['.', '.']

/-- `readDir` (file-dialog source lines 49-70): sort the OS listing with
`sortFiles.Less` and prepend the synthetic `.` and `..` entries (whose
is-directory flags come from `os.Stat`). -/
def readDir (dotIsDir dotdotIsDir : Bool) (files : List DirEntry) : List DirEntry :=
  ⟨dotName, dotIsDir⟩ :: ⟨dotdotName, dotdotIsDir⟩ :: List.insertionSort fileLE files

theorem fileLE_imp_group (a b : DirEntry) (h : fileLE a b) :
    (a.isDir = true ∧ b.isDir = false) ∨
      (a.isDir = b.isDir ∧ nameLt b.name a.name = false) := by
  unfold fileLE fileLess at h
  cases ha : a.isDir <;> cases hb : b.isDir <;> simp [ha, hb] at h ⊢
  · exact h
  · exact h

/-- C6: the directory listing yields `.` and `..` as its first two entries,
followed by a permutation of the OS entries in which every directory
precedes every non-directory and each group is ordered lexicographically by
name; on the example directory {b.txt, a.txt, z/} the listing is
[".", "..", "z", "a.txt", "b.txt"]. -/
theorem readDir_spec (dotIsDir dotdotIsDir : Bool) (files : List DirEntry) :
    (readDir dotIsDir dotdotIsDir files).take 2 =
      [⟨dotName, dotIsDir⟩, ⟨dotdotName, dotdotIsDir⟩] ∧
    ((readDir dotIsDir dotdotIsDir files).drop 2).Perm files ∧
    List.Pairwise
      (fun a b => (a.isDir = true ∧ b.isDir = false) ∨
        (a.isDir = b.isDir ∧ nameLt b.name a.name = false))
      ((readDir dotIsDir dotdotIsDir files).drop 2) ∧
    (readDir true true
        [⟨['b', '.', 't', 'x', 't'], false⟩, ⟨['a', '.', 't', 'x', 't'], false⟩,
         ⟨['z'], true⟩]).map DirEntry.name =
      [['.'], ['.', '.'], ['z'], ['a', '.', 't', 'x', 't'],
       ['b', '.', 't', 'x', 't']] := by
  refine ⟨rfl, ?_, ?_, by decide⟩
  · exact List.perm_insertionSort fileLE files
  · exact (List.sorted_insertionSort fileLE files).imp (fun h => fileLE_imp_group _ _ h)

/-! ## Detail-view scrolling (`openMessageDraw` and the scroll commands,
cmdg.go 554-630)

`openMessageDraw` clamps the global scroll offset to
`maxScroll = len(bodyLines) - h + 10` from above and to `0` from below
before rendering (the constant 10 padding the always-shown header lines);
every scroll command mutates the offset and immediately redraws, and
`messagesCmdOpen` resets the offset to 0 before drawing. -/

/-- The clamp performed by `openMessageDraw` (cmdg.go 574-580). -/
def clampScroll (total h y : Int) : Int :=
  let maxScroll := total - h + 10
  let y1 := if maxScroll < y then maxScroll else y
  if y1 < 0 then 0 else y1

/-- The scroll-mutating commands of the open-message view, each of which
ends in a redraw (cmdg.go 335-339, 609-630). -/
inductive ScrollOp
  | pageDown
  | pageUp
  | scrollDown
  | scrollUp
  | openMsg

/-- Effect of one command on the scroll offset, including the clamp of the
redraw it triggers: page commands move by the view height `h`, line
commands by 2, `openMsg` resets to 0. -/
def scrollStep (total h : Int) (y : Int) : ScrollOp → Int
  | .pageDown => clampScroll total h (y + h)
  | .pageUp => clampScroll total h (y - h)
  | .scrollDown => clampScroll total h (y + 2)
  | .scrollUp => clampScroll total h (y - 2)
  | .openMsg => clampScroll total h 0

theorem clampScroll_bounds (total h y : Int) :
    0 ≤ clampScroll total h y ∧ clampScroll total h y ≤ max 0 (total - h + 10) := by
  unfold clampScroll
  dsimp only []
  split_ifs <;> constructor <;> omega

/-- C7: after every sequence of page-down / page-up / line-scroll / open
operations, the scroll offset in effect at render time lies in
`[0, max 0 (totalBodyLines - visibleHeight + 10)]` (10 being the fixed
header padding), and opening an item resets the rendered offset to 0. -/
theorem scroll_offset_clamped (total h y : Int) (ops : List ScrollOp) (op : ScrollOp) :
    (0 ≤ (ops ++ [op]).foldl (scrollStep total h) y ∧
      (ops ++ [op]).foldl (scrollStep total h) y ≤ max 0 (total - h + 10)) ∧
    scrollStep total h y ScrollOp.openMsg = 0 := by
  constructor
  · rw [List.foldl_append]
    generalize (ops.foldl (scrollStep total h) y) = y1
    cases op <;> exact clampScroll_bounds total h _
  · unfold scrollStep clampScroll
    dsimp only []
    split_ifs <;> omega

/-! ## Timestamp rendering (`timestring`, cmdg.go 178-191)

`timestring` parses the Date header and renders `ts.Format("2006")` when
`time.Since(ts) > 365*24*time.Hour`, else `ts.Format("Jan 02")` when
`time.Now().Day() != ts.Day()` — a comparison of the day-of-month fields
only — else `ts.Format("15:04")`.  Instants are modelled in seconds with
the calendar fields the code reads. -/

/-- The fields of a Go `time.Time` that `timestring` observes: an absolute
instant (seconds) plus broken-down calendar fields. -/
structure GoTime where
  sec : Int
  year : Nat
  month : Nat
  day : Nat
  hour : Nat
  minute : Nat
deriving DecidableEq

def digitChar (n : Nat) : Char := Char.ofNat (48 + n % 10)

/-- Zero-padded two-digit field, as in the layouts `02`, `15`, `04`. -/
def pad2 (n : Nat) : List Char := [digitChar (n / 10 % 10), digitChar (n % 10)]

/-- `ts.Format("2006")`: the four-digit year. -/
def fmtYear (y : Nat) : List Char :=
  [digitChar (y / 1000 % 10), digitChar (y / 100 % 10), digitChar (y / 10 % 10),
   digitChar (y % 10)]

def monthNames : List (List Char) :=
  [['J','a','n'], ['F','e','b'], ['M','a','r'], ['A','p','r'], ['M','a','y'],
   ['J','u','n'], ['J','u','l'], ['A','u','g'], ['S','e','p'], ['O','c','t'],
   ['N','o','v'], ['D','e','c']]

/-- `ts.Format("Jan 02")`: abbreviated month, space, two-digit day. -/
def fmtMonthDay (m d : Nat) : List Char :=
  monthNames.getD (m - 1) [] ++ [' '] ++ pad2 d

/-- `ts.Format("15:04")`: 24-hour clock time. -/
def fmtHM (h m : Nat) : List Char := pad2 h ++ [':'] ++ pad2 m

/-- `timestring` (cmdg.go 178-191) on an already-parsed Date header. -/
def timestring (now ts : GoTime) : List Char :=
  if 365 * 86400 < now.sec - ts.sec then fmtYear ts.year
  else if now.day ≠ ts.day then fmtMonthDay ts.month ts.day
  else fmtHM ts.hour ts.minute

/-- "Now" for the C8 failing input: 2015-03-15 12:00. -/
def c8Now : GoTime := ⟨1426420800, 2015, 3, 15, 12, 0⟩

/-- The C8 failing input: a message dated 2015-02-15 10:00 — 28 days before
`c8Now`, a different calendar day within the last year, but the same
day-of-month. -/
def c8Ts : GoTime := ⟨1426420800 - 2419200, 2015, 2, 15, 10, 0⟩

/-- C8: `timestring` compares only the day-of-month (`Day()`), so a message
from a different calendar day within the last year whose day-of-month
equals today's renders as `HH:MM` instead of the claimed `Mon DD`: on the
concrete failing input — a different calendar day, within 365 days, same
day-of-month — it renders "10:00", not "Feb 15".  (The other two claimed
cases do hold: more than 365 days old renders the year, and an
earlier-today date renders `HH:MM`.) -/
theorem timestring_dayOfMonth_bug :
    (c8Ts.year, c8Ts.month, c8Ts.day) ≠ (c8Now.year, c8Now.month, c8Now.day) ∧
    c8Now.sec - c8Ts.sec ≤ 365 * 86400 ∧
    timestring c8Now c8Ts = fmtHM 10 0 ∧
    timestring c8Now c8Ts ≠ fmtMonthDay 2 15 ∧
    (∀ now ts : GoTime, 365 * 86400 < now.sec - ts.sec →
      timestring now ts = fmtYear ts.year) ∧
    (∀ now ts : GoTime, now.sec - ts.sec ≤ 365 * 86400 → now.day = ts.day →
      timestring now ts = fmtHM ts.hour ts.minute) := by
  refine ⟨by decide, by decide, by decide, by decide, ?_, ?_⟩
  · intro now ts hy
    unfold timestring
    rw [if_pos hy]
  · intro now ts hy hd
    unfold timestring
    rw [if_neg (by omega), if_neg (by simp [hd])]

/-- Witness for the two universally quantified branches of the C8
evaluation theorem, at concrete instants. -/
theorem timestring_dayOfMonth_bug_witness :
    timestring ⟨86400 * 400, 2001, 1, 1, 9, 30⟩ ⟨0, 1999, 12, 1, 8, 5⟩ = fmtYear 1999 ∧
    timestring ⟨86400 * 10, 2000, 1, 11, 9, 30⟩ ⟨86400 * 10 - 3600, 2000, 1, 11, 8, 5⟩ =
      fmtHM 8 5 :=
  ⟨timestring_dayOfMonth_bug.2.2.2.2.1 ⟨86400 * 400, 2001, 1, 1, 9, 30⟩
      ⟨0, 1999, 12, 1, 8, 5⟩ (by decide),
   timestring_dayOfMonth_bug.2.2.2.2.2 ⟨86400 * 10, 2000, 1, 11, 9, 30⟩
      ⟨86400 * 10 - 3600, 2000, 1, 11, 8, 5⟩ (by decide) (by decide)⟩

end Cmdg
